import Mathlib

/-!
Verification development for `sebze_meyve_fisi_quickwin_v2.py`, a produce
point-of-sale form.  The development shallowly embeds the program's pure
logic: Unicode strings are lists of code points (`Nat`), the character
tables (`str.casefold`, `str.lower`, `str.capitalize`, whitespace) are
spelled out for the alphabet the application works with (ASCII letters,
digits, ASCII punctuation/whitespace and the Turkish letters
İ ı Ş ş Ç ç Ğ ğ Ö ö Ü ü, plus U+0307 COMBINING DOT ABOVE, which
`casefold`/`lower` produce from İ).  Every table entry below reproduces the
value mandated by the Unicode data files that CPython's `str` methods use.
-/

namespace SebzeMeyve

/-- A Python string, as its list of Unicode code points. -/
abbrev Str := List Nat

/-- Whitespace recognised by `str.split()` / `str.strip()` on the modelled
alphabet: space, tab, LF, CR, VT, FF. -/
def isWS (c : Nat) : Bool :=
  c = 32 || c = 9 || c = 10 || c = 13 || c = 11 || c = 12

/-- `str.casefold` of a single code point, per Unicode CaseFolding.txt, on
the modelled alphabet.  Notably `İ` (U+0130) full-case-folds to the pair
`i` + U+0307 (combining dot above), and `ı` (U+0131) folds to itself. -/
def casefoldChar (c : Nat) : List Nat :=
  if 65 ≤ c ∧ c ≤ 90 then [c + 32]       -- A-Z → a-z
  else if c = 304 then [105, 775]         -- İ → i + combining dot above
  else if c = 350 then [351]              -- Ş → ş
  else if c = 199 then [231]              -- Ç → ç
  else if c = 286 then [287]              -- Ğ → ğ
  else if c = 214 then [246]              -- Ö → ö
  else if c = 220 then [252]              -- Ü → ü
  else [c]                                -- incl. ı (U+0131): no folding

/-- `str.lower` of a single code point.  On the modelled alphabet the
`lower` and `casefold` tables coincide (in particular `İ`.lower() is also
`i` + U+0307, per Unicode SpecialCasing.txt). -/
def lowerChar (c : Nat) : List Nat := casefoldChar c

/-- Title-casing of a single code point, as used by `str.capitalize` for
the first character.  `ı` (U+0131) upper-cases to ASCII `I`. -/
def titleChar (c : Nat) : Nat :=
  if 97 ≤ c ∧ c ≤ 122 then c - 32        -- a-z → A-Z
  else if c = 305 then 73                 -- ı → I
  else if c = 351 then 350                -- ş → Ş
  else if c = 231 then 199                -- ç → Ç
  else if c = 287 then 286                -- ğ → Ğ
  else if c = 246 then 214                -- ö → Ö
  else if c = 252 then 220                -- ü → Ü
  else c

/-- `str.split()` with no separator: split on runs of whitespace and drop
empty pieces (leading/trailing whitespace never yields a word). -/
def splitWSAux : Str → Str → List Str
  | [], acc => if acc = [] then [] else [acc.reverse]
  | c :: rest, acc =>
    if isWS c then
      (if acc = [] then splitWSAux rest [] else acc.reverse :: splitWSAux rest [])
    else splitWSAux rest (c :: acc)

/-- The words of a string, in order (`str.split()`). -/
def splitWS (s : Str) : List Str := splitWSAux s []

/-- `" ".join(words)`: interleave a single space (code point 32). -/
def joinSpace : List Str → Str
  | [] => []
  | [w] => w
  | w :: ws => w ++ 32 :: joinSpace ws

/-- `unicodedata.normalize("NFKC", ·)`.  Every code point of the modelled
input alphabet is NFKC-stable as a singleton and no two adjacent modelled
input code points compose (the alphabet contains no combining marks), so
on this fragment NFKC is the identity. -/
def nfkc (s : Str) : Str := s

/-- `str.strip()`: drop leading and trailing whitespace. -/
def pyStrip (s : Str) : Str :=
  (s.dropWhile (fun c => isWS c)).reverse.dropWhile (fun c => isWS c) |>.reverse

/-- `_normalize_for_comparison` (source lines 46-51): NFKC-normalize,
collapse whitespace runs to single spaces and trim the ends
(`" ".join(name.strip().split())`), then `casefold`. -/
def normalize_for_comparison (name : Str) : Str :=
  (joinSpace (splitWS (nfkc name))).flatMap casefoldChar

/-- `str.capitalize()` applied to a word: title-case the first character,
lower-case the rest. -/
def pyCapitalize : Str → Str
  | [] => []
  | c :: rest => titleChar c :: rest.flatMap lowerChar

/-- `turkish_title` (source lines 56-61): lower-case the (already
whitespace-free) word; if the result starts with `i` (105), replace that
first letter by `İ` (304); otherwise `capitalize` it. -/
def turkish_title (word : Str) : Str :=
  let w := (pyStrip word).flatMap lowerChar
  match w with
  | [] => []
  | c :: rest => if c = 105 then 304 :: rest else pyCapitalize (c :: rest)

/-- `_format_for_display` (source lines 53-62): apply `turkish_title` to
each whitespace-separated word and join with single spaces. -/
def format_for_display (name : Str) : Str :=
  joinSpace ((splitWS (pyStrip name)).map turkish_title)

/-- Replace every ASCII capital `I` (73) by lowercase `i` (105); used to
state that the two letters receive identical normalized keys. -/
def mapItoi (s : Str) : Str := s.map (fun c => if c = 73 then 105 else c)

/-- The customer record (source lines 25-42): `name` is the identity key;
`phone` and `address` default to the empty string. -/
structure Customer where
  name : Str
  phone : Str := []
  address : Str := []
deriving DecidableEq, Repr

/-!
## difflib model

`_find_customer_by_name` calls `difflib.get_close_matches(key, keys, n=1,
cutoff=0.7)`.  We embed the Ratcliff/Obershelp machinery of
`difflib.SequenceMatcher` for that call.  The sequences involved are
normalized customer names, far shorter than 200 characters, so the
`autojunk` heuristic of `SequenceMatcher` is inactive and there are no
junk elements.  Similarity ratios (`2*M/T` computed in binary floating
point by difflib) are modelled as exact rationals: every ratio is a
rational with denominator `T` (the summed lengths), and for any realistic
`T` the float images of distinct such rationals are distinct and ordered
identically, so the exact-rational model of the comparisons against the
cutoff and of the maximum selection is faithful.
-/

/-- Length of the longest common prefix of two strings. -/
def commonPrefixLen : Str → Str → Nat
  | x :: xs, y :: ys => if x = y then commonPrefixLen xs ys + 1 else 0
  | _, _ => 0

/-- Fold step choosing the better matching block: a block strictly longer
than the incumbent replaces it (so with pairs visited in lexicographic
order the first longest block, i.e. the one with least `i` then least `j`,
wins — the documented contract of `find_longest_match`). -/
def flmPick (a b : Str) (t : Nat × Nat × Nat) (p : Nat × Nat) : Nat × Nat × Nat :=
  let k := commonPrefixLen (a.drop p.1) (b.drop p.2)
  if t.2.2 < k then (p.1, p.2, k) else t

/-- `SequenceMatcher.find_longest_match` on whole strings, junk-free case:
the triple `(i, j, k)` with `a[i:i+k] == b[j:j+k]`, `k` maximal, then `i`
minimal, then `j` minimal. -/
def find_longest_match (a b : Str) : Nat × Nat × Nat :=
  ((List.range a.length).flatMap
      (fun i => (List.range b.length).map (fun j => (i, j)))).foldl
    (flmPick a b) (0, 0, 0)

/-- Total size of the matching blocks (`get_matching_blocks`), computed by
the Ratcliff/Obershelp recursion: take the longest match, recurse on the
pieces to its left and to its right.  `fuel` is a structural-recursion
bound; `matchingTotal` supplies `a.length + b.length`, which
`matchTotalAux_congr` below proves sufficient. -/
def matchTotalAux : Nat → Str → Str → Nat
  | 0, _, _ => 0
  | fuel + 1, a, b =>
    let t := find_longest_match a b
    if t.2.2 = 0 then 0
    else
      matchTotalAux fuel (a.take t.1) (b.take t.2.1) + t.2.2 +
        matchTotalAux fuel (a.drop (t.1 + t.2.2)) (b.drop (t.2.1 + t.2.2))

/-- Total matched size `M` used by `SequenceMatcher.ratio`. -/
def matchingTotal (a b : Str) : Nat := matchTotalAux (a.length + b.length) a b

/-- `difflib._calculate_ratio` as an exact fraction (numerator,
positive denominator): `2*M / T`, and `1/1` when both strings are empty.
The similarity comparisons of the algorithm are carried out on these
pairs by cross multiplication, which is exact; `ratioQ` below is the
rational value used in statements. -/
def ratioPair (x y : Str) : Nat × Nat :=
  if x.length + y.length = 0 then (1, 1)
  else (2 * matchingTotal x y, x.length + y.length)

/-- The similarity ratio of `SequenceMatcher.ratio`, as a rational. -/
def ratioQ (x y : Str) : ℚ :=
  ((ratioPair x y).1 : ℚ) / ((ratioPair x y).2 : ℚ)

/-- `0.7 ≤ ratio`, decided by cross multiplication. -/
def ratioGeCutoff (k q : Str) : Bool :=
  decide (7 * (ratioPair k q).2 ≤ 10 * (ratioPair k q).1)

/-- `ratio(x, q) < ratio(b, q)`, decided by cross multiplication. -/
def ratioLtRatio (x b q : Str) : Bool :=
  decide ((ratioPair x q).1 * (ratioPair b q).2 < (ratioPair b q).1 * (ratioPair x q).2)

/-- `ratio(x, q) = ratio(b, q)`, decided by cross multiplication. -/
def ratioEqRatio (x b q : Str) : Bool :=
  decide ((ratioPair x q).1 * (ratioPair b q).2 = (ratioPair b q).1 * (ratioPair x q).2)

/-- Python string `<`: lexicographic comparison by code point, a proper
prefix being smaller. -/
def keyLt : Str → Str → Bool
  | [], [] => false
  | [], _ :: _ => true
  | _ :: _, [] => false
  | x :: xs, y :: ys => if x < y then true else if y < x then false else keyLt xs ys

/-- Comparison used by `heapq.nlargest` inside `get_close_matches`:
candidate `x` beats incumbent `b` iff the pair `(ratio, string)` of `x`
is lexicographically greater. -/
def beats (q x b : Str) : Bool :=
  if ratioLtRatio b x q then true
  else if ratioEqRatio x b q then keyLt b x
  else false

/-- One step of the winner selection of `get_close_matches`: a key below
the cutoff is discarded; otherwise it replaces the incumbent when it
beats it. -/
def gcmStep (q : Str) (best : Option Str) (k : Str) : Option Str :=
  if ratioGeCutoff k q then
    match best with
    | none => some k
    | some b => if beats q k b then some k else some b
  else best

/-- `difflib.get_close_matches(q, keys, n=1, cutoff=0.7)`, returning the
single winner if any.  difflib filters by `real_quick_ratio`,
`quick_ratio` and `ratio` against the cutoff; the first two are upper
bounds of `ratio`, so the test is equivalent to `ratio ≥ 0.7`.
`heapq.nlargest(1, ·)` then selects the maximal `(ratio, string)` pair. -/
def get_close_match1 (q : Str) (keys : List Str) : Option Str :=
  keys.foldl (gcmStep q) none

/-- Key list of the dict comprehension `{normalize(c.name): c for c in
customers}`: each distinct key once, in order of first occurrence. -/
def firstDedup (l : List Str) : List Str :=
  l.foldl (fun acc k => if k ∈ acc then acc else acc ++ [k]) []

/-- Value of the dict comprehension at key `k`: the last customer whose
normalized name is `k`. -/
def lastWithKey (customers : List Customer) (k : Str) : Option Customer :=
  customers.reverse.find? (fun c => decide (normalize_for_comparison c.name = k))

/-- `_find_customer_by_name` (source lines 65-77): empty raw query →
`None`; otherwise first customer with an exactly equal normalized name;
otherwise the single `get_close_matches` winner with cutoff 0.7, looked up
through the key→customer dict; otherwise `None`. -/
def find_customer_by_name (customers : List Customer) (name : Str) : Option Customer :=
  if name = [] then none
  else
    match customers.find? (fun c =>
        decide (normalize_for_comparison c.name = normalize_for_comparison name)) with
    | some c => some c
    | none =>
      match get_close_match1 (normalize_for_comparison name)
          (firstDedup (customers.map (fun c => normalize_for_comparison c.name))) with
      | some w => lastWithKey customers w
      | none => none

/-!
## Number parsing and totals
-/

/-- The value of a Python `float` conversion: a finite value (modelled
exactly as a rational — every accepted literal denotes a rational), an
infinity, or NaN. -/
inductive PyFloat where
  | fin (q : ℚ)
  | inf
  | ninf
  | nan
deriving DecidableEq, Repr

/-- ASCII decimal digit. -/
def isDigit (c : Nat) : Bool := 48 ≤ c && c ≤ 57

/-- Continuation of a digit run after at least one digit has been seen:
further digits, or a single underscore that is followed by a digit
(PEP 515).  An underscore not followed by a digit ends the run (the
remainder then starts with `_`, which no continuation of the grammar
accepts, so the whole parse fails exactly as CPython does on `"1_"` or
`"1__0"`). -/
def digitRunCont : Str → (List Nat × Str)
  | [] => ([], [])
  | c :: rest =>
    if isDigit c then
      let p := digitRunCont rest
      ((c - 48) :: p.1, p.2)
    else if c = 95 then
      match rest with
      | d :: _ => if isDigit d then digitRunCont rest else ([], c :: rest)
      | [] => ([], c :: rest)
    else ([], c :: rest)

/-- Scan a digit run as accepted inside Python numeric literals: a first
digit, then digits with single underscores allowed only between digits
(PEP 515 requires every underscore to be preceded and followed by a
digit).  Returns the digit values scanned and the unconsumed remainder.
A leading underscore is not part of any run: the run is empty and the
remainder starts with `_`, which no continuation of the grammar accepts,
so the whole parse fails exactly as CPython does on `"_5"`, `"._5"` or
`"1e_5"`. -/
def digitRunAux : Str → (List Nat × Str)
  | [] => ([], [])
  | c :: rest =>
    if isDigit c then
      let p := digitRunCont rest
      ((c - 48) :: p.1, p.2)
    else ([], c :: rest)

/-- Value of a digit list, most significant first. -/
def natOfDigits (ds : List Nat) : Nat := ds.foldl (fun n d => 10 * n + d) 0

/-- Exponent suffix of a float literal (`(e|E) [sign] digits`), applied to
the mantissa; the whole remainder must be consumed. -/
def parseExpPart (r : Str) (m : ℚ) : Option ℚ :=
  match r with
  | [] => some m
  | c :: r2 =>
    if c = 101 ∨ c = 69 then
      let signApplied : Str → Bool → Option ℚ := fun r3 pos =>
        let p := digitRunAux r3
        if p.1 = [] ∨ p.2 ≠ [] then none
        else some (if pos then m * 10 ^ natOfDigits p.1 else m / 10 ^ natOfDigits p.1)
      match r2 with
      | 43 :: r3 => signApplied r3 true
      | 45 :: r3 => signApplied r3 false
      | _ => signApplied r2 true
    else none

/-- Decimal part of a float literal after the optional sign:
`digits [. digits] [exp]` or `. digits [exp]`, with at least one mantissa
digit. -/
def parseDecimal (s : Str) : Option ℚ :=
  let ip := digitRunAux s
  match ip.2 with
  | 46 :: r2 =>
    let fp := digitRunAux r2
    if ip.1 = [] ∧ fp.1 = [] then none
    else
      parseExpPart fp.2
        ((natOfDigits ip.1 : ℚ) + (natOfDigits fp.1 : ℚ) / 10 ^ fp.1.length)
  | _ => if ip.1 = [] then none else parseExpPart ip.2 (natOfDigits ip.1 : ℚ)

/-- ASCII lowercasing, used for the case-insensitive `inf`/`nan` forms. -/
def asciiLower (c : Nat) : Nat := if 65 ≤ c ∧ c ≤ 90 then c + 32 else c

/-- Body of a float literal after stripping and the optional sign. -/
def parseBody (s : Str) (neg : Bool) : Option PyFloat :=
  let low := s.map asciiLower
  if low = [105, 110, 102] ∨ low = [105, 110, 102, 105, 110, 105, 116, 121] then
    some (if neg then .ninf else .inf)        -- "inf" / "infinity"
  else if low = [110, 97, 110] then some .nan -- "nan" (sign ignored)
  else
    match parseDecimal s with
    | some q => some (.fin (if neg then -q else q))
    | none => none

/-- Python `float(s)` on the modelled alphabet: strip whitespace, optional
sign, then `inf`/`infinity`/`nan` (case-insensitive) or a decimal
literal.  `none` models `ValueError`. -/
def pyFloatOfStr (s : Str) : Option PyFloat :=
  match pyStrip s with
  | 43 :: r => parseBody r false
  | 45 :: r => parseBody r true
  | t => parseBody t false

/-- `value.replace(',', '.')`. -/
def commaToDot (s : Str) : Str := s.map (fun c => if c = 44 then 46 else c)

/-- `_parse_number` (source lines 323-330): empty string → `0.0`; replace
commas by dots and convert with `float`; on `ValueError` return `0.0`. -/
def parse_number (value : Str) : PyFloat :=
  if value = [] then .fin 0
  else
    match pyFloatOfStr (commaToDot value) with
    | some v => v
    | none => .fin 0

/-- The three monetary results of a receipt computation. -/
structure Totals where
  net : ℚ
  vatAmount : ℚ
  total : ℚ
deriving DecidableEq, Repr

/-- The pricing arithmetic of `_generate_receipt_text` (source lines
346-348) and `calculate_total` (337-339): `net = weight * price`,
`vatAmount = net * vat_rate`, `total = net + vatAmount`.  The values are
modelled as exact rationals. -/
def computeTotals (weight price vat_rate : ℚ) : Totals :=
  let net_total := weight * price
  let vat_amount := net_total * vat_rate
  { net := net_total, vatAmount := vat_amount, total := net_total + vat_amount }

/-- `'Pazarcı Esnafı'`. -/
def strPazarci : Str := [80, 97, 122, 97, 114, 99, 305, 32, 69, 115, 110, 97, 102, 305]

/-- `'Hal İçi / Ortacı'`. -/
def strHalIci : Str :=
  [72, 97, 108, 32, 304, 231, 105, 32, 47, 32, 79, 114, 116, 97, 99, 305]

/-- `ROLE_VAT_MAP.get(role, 0.0)` (source lines 102-105, 338, 447). -/
def roleVat (role : Str) : ℚ :=
  if role = strPazarci then 2 / 100
  else if role = strHalIci then 1 / 100
  else 0

/-!
## Filesystem, persistence and the application operations
-/

/-- A file path, by pathlib's (stem, suffix) decomposition of its final
component (the suffix is the last dotted extension, empty when there is
none); `with_suffix` replaces exactly this component.  Directories are not
modelled (all receipt/customer files live in user-chosen locations that
the decomposition abstracts). -/
structure PathName where
  stem : Str
  suffix : Str
deriving DecidableEq, Repr

/-- `Path.with_suffix`. -/
def withSuffix (p : PathName) (s : Str) : PathName := ⟨p.stem, s⟩

/-- `".tmp"`. -/
def tmpSuffix : Str := [46, 116, 109, 112]

/-- `".json"`. -/
def jsonSuffix : Str := [46, 106, 115, 111, 110]

/-- Contents of a file: receipt text, or the JSON-serialized customer
list (`json.dump` of the `to_dict` records; `from_dict ∘ to_dict` is the
identity on `Customer`, so the list itself is the faithful model of the
serialized form). -/
inductive FileData where
  | textFile (content : Str)
  | jsonDir (customers : List Customer)
deriving DecidableEq, Repr

/-- The filesystem: a partial map from paths to file contents. -/
def FS := PathName → Option FileData

/-- Point update of the filesystem. -/
def fsUpdate (fs : FS) (p : PathName) (v : Option FileData) : FS :=
  fun q => if q = p then v else fs q

/-- `os.replace` / `Path.replace`: atomically move `src` onto `dst`
(replacing `dst`); moving a path onto itself leaves it unchanged. -/
def fsReplace (fs : FS) (src dst : PathName) : FS :=
  fun q => if q = dst then fs src else if q = src then none else fs q

/-- Failure point of an atomic receipt write: none, an exception (or
crash) during `write_text` leaving only the first `written` code points
in the temporary file, or an exception from `replace`. -/
inductive WFail where
  | noFail
  | duringWrite (written : Nat)
  | atRename
deriving DecidableEq, Repr

/-- Entries of the diagnostic log (`uygulama.log`). -/
inductive LogEntry where
  | atomicWriteFailed
  | loadFailed
  | saveFailed
  | printFailed
deriving DecidableEq, Repr

/-- Result seen by the caller of `_write_receipt_atomic`: normal return,
or the re-raised exception. -/
inductive WResult where
  | ok
  | ioError
deriving DecidableEq, Repr

/-- State after `_write_receipt_atomic`: filesystem, log entries
appended, and the outcome delivered to the caller. -/
structure WriteOut where
  fs : FS
  log : List LogEntry
  result : WResult

/-- `_write_receipt_atomic` (source lines 398-406): write `content` to
`path.with_suffix('.tmp')`, then `replace` it onto `path`; any exception
is logged and re-raised. -/
def write_receipt_atomic (fs : FS) (path : PathName) (content : Str) (fail : WFail) :
    WriteOut :=
  let tmp := withSuffix path tmpSuffix
  match fail with
  | .noFail =>
    let fs1 := fsUpdate fs tmp (some (.textFile content))
    { fs := fsReplace fs1 tmp path, log := [], result := .ok }
  | .duringWrite k =>
    { fs := fsUpdate fs tmp (some (.textFile (content.take k))),
      log := [.atomicWriteFailed], result := .ioError }
  | .atRename =>
    { fs := fsUpdate fs tmp (some (.textFile content)),
      log := [.atomicWriteFailed], result := .ioError }

/-- `CUSTOMER_FILE = Path("customers.json")`. -/
def CUSTOMER_FILE : PathName :=
  ⟨[99, 117, 115, 116, 111, 109, 101, 114, 115], jsonSuffix⟩

/-- In-memory customer list plus the filesystem it persists to. -/
structure AppState where
  customers : List Customer
  fs : FS

/-- `save_customers` (source lines 92-98): full rewrite of
`customers.json`. -/
def save_customers (st : AppState) : AppState :=
  { st with fs := fsUpdate st.fs CUSTOMER_FILE (some (.jsonDir st.customers)) }

/-- `load_customers` (source lines 80-90): a missing or unparseable file
yields the empty list. -/
def load_customers (fs : FS) : List Customer :=
  match fs CUSTOMER_FILE with
  | some (.jsonDir cs) => cs
  | some (.textFile _) => []
  | none => []

/-- Outcome of `_add_new_customer` as surfaced to the user. -/
inductive AddResult where
  | ok
  | emptyName
  | duplicate
deriving DecidableEq, Repr

/-- `_add_new_customer` (source lines 233-248): reject an empty
normalized name; reject a duplicate of an existing *normalized* key;
otherwise append a customer under the display-cased name and persist. -/
def add_new_customer (st : AppState) (raw : Str) : AppState × AddResult :=
  let normalized := normalize_for_comparison raw
  if normalized = [] then (st, .emptyName)
  else if normalized ∈ st.customers.map (fun c => normalize_for_comparison c.name) then
    (st, .duplicate)
  else
    let display_name := format_for_display raw
    let cs := st.customers ++ [{ name := display_name }]
    (save_customers { st with customers := cs }, .ok)

/-- `_remove_selected_customer` (source lines 250-262), modelled at the
point where a listed name is selected and the confirmation dialog was
answered yes: drop every customer whose normalized name equals the
normalized target and persist.  The Python function returns `None`; the
second component models the returned value (`none` = Python `None`). -/
def remove_selected_customer (st : AppState) (name : Str) : AppState × Option Bool :=
  let cs := st.customers.filter
    (fun c => decide (normalize_for_comparison c.name ≠ normalize_for_comparison name))
  (save_customers { st with customers := cs }, none)

/-- States reachable from an empty directory through the public
operations: add, remove, and load (`load_customers` reading back whatever
`customers.json` currently holds). -/
inductive Reach : AppState → Prop where
  | init : Reach ⟨[], fun _ => none⟩
  | add (st : AppState) (raw : Str) : Reach st → Reach (add_new_customer st raw).1
  | remove (st : AppState) (name : Str) :
      Reach st → Reach (remove_selected_customer st name).1
  | load (st : AppState) : Reach st → Reach ⟨load_customers st.fs, st.fs⟩

/-- No two directory entries share a normalized name (the invariant of
claim C6). -/
def DupFree (customers : List Customer) : Prop :=
  customers.Pairwise
    (fun a b => normalize_for_comparison a.name ≠ normalize_for_comparison b.name)

instance (customers : List Customer) : Decidable (DupFree customers) := by
  unfold DupFree; infer_instance

/-- The record of fields interpolated into the receipt text by
`_generate_receipt_text` (source lines 344-361), in source order.  The
timestamp and the 2-decimal formatting are not modelled; the customer
name enters exactly as stored in the record. -/
structure ReceiptData where
  role : Str
  customerName : Str
  itemType : Str
  pieceCount : Str
  weight : ℚ
  price : ℚ
  netTotal : ℚ
  vatAmount : ℚ
  totalWithVat : ℚ
deriving DecidableEq, Repr

/-- `_generate_receipt_text` (source lines 344-361), as the field record
it interpolates. -/
def generate_receipt_data (role : Str) (customer : Customer) (item piece : Str)
    (weight price vat_rate : ℚ) : ReceiptData :=
  let t := computeTotals weight price vat_rate
  { role, customerName := customer.name, itemType := item, pieceCount := piece,
    weight, price, netTotal := t.net, vatAmount := t.vatAmount,
    totalWithVat := t.total }

/-- Decimal digits of a natural number. -/
def natDigits (n : Nat) : Str := (Nat.toDigits 10 n).map Char.toNat

/-- Code-point rendering of a rational (sign, numerator, `/`,
denominator).  Stands in for the `%.2f` formatting, which no claim
depends on. -/
def encodeQ (q : ℚ) : Str :=
  (if q < 0 then [45] else []) ++ natDigits q.num.natAbs ++ 47 :: natDigits q.den

/-- Newline-separated rendering of the receipt fields in source order;
stands in for the exact text of `_generate_receipt_text`. -/
def encodeReceipt (r : ReceiptData) : Str :=
  r.role ++ 10 :: r.customerName ++ 10 :: r.itemType ++ 10 :: r.pieceCount ++
    10 :: encodeQ r.weight ++ 10 :: encodeQ r.price ++ 10 :: encodeQ r.netTotal ++
    10 :: encodeQ r.vatAmount ++ 10 :: encodeQ r.totalWithVat

/-- Outcome of `print_receipt` as surfaced to the user. -/
inductive PrintOutcome where
  | warnedEmptyName
  | warnedWeight
  | warnedPrice
  | saved
  | errorShown
deriving DecidableEq, Repr

/-- `print_receipt` (source lines 426-488): validate the typed name and
the positivity of weight and price; resolve the customer by
`_find_customer_by_name`, falling back to a transient display-cased
record; build the receipt; write it atomically to the user-chosen
`savePath`; show success, or catch the propagated write error and show a
generic error.  `weight` and `price` enter as the already-parsed finite
values of `_parse_number` (the non-finite float inputs are outside the
modelled fragment); `fail` is the failure point of the atomic write; the
print dispatch (`_do_print`) touches no modelled state. -/
def print_receipt (st : AppState) (typedName itemType pieceCount : Str)
    (weight price : ℚ) (role : Str) (savePath : PathName) (fail : WFail) :
    AppState × PrintOutcome :=
  let customer_name := pyStrip typedName
  if customer_name = [] then (st, .warnedEmptyName)
  else if weight ≤ 0 then (st, .warnedWeight)
  else if price ≤ 0 then (st, .warnedPrice)
  else
    let customer :=
      match find_customer_by_name st.customers customer_name with
      | some c => c
      | none => { name := format_for_display customer_name }
    let vat_rate := roleVat role
    let rdata := generate_receipt_data role customer itemType pieceCount weight price vat_rate
    let w := write_receipt_atomic st.fs savePath (encodeReceipt rdata) fail
    ({ st with fs := w.fs },
      match w.result with
      | .ok => .saved
      | .ioError => .errorShown)

/-!
## Supporting lemmas
-/

/-- Fold invariant preservation. -/
theorem foldl_preserve {α β : Type} (P : β → Prop) (f : β → α → β) :
    ∀ (l : List α) (acc : β), P acc → (∀ t x, x ∈ l → P t → P (f t x)) →
      P (l.foldl f acc)
  | [], _, h, _ => h
  | x :: xs, acc, h, hstep =>
    foldl_preserve P f xs (f acc x) (hstep acc x (List.mem_cons_self x xs) h)
      (fun t y hy ht => hstep t y (List.mem_cons_of_mem x hy) ht)

theorem commonPrefixLen_le_left : ∀ xs ys : Str, commonPrefixLen xs ys ≤ xs.length
  | [], _ => by simp [commonPrefixLen]
  | _ :: _, [] => by simp [commonPrefixLen]
  | x :: xs, y :: ys => by
    unfold commonPrefixLen
    by_cases h : x = y
    · simpa [h] using commonPrefixLen_le_left xs ys
    · simp [h]

theorem commonPrefixLen_le_right : ∀ xs ys : Str, commonPrefixLen xs ys ≤ ys.length
  | [], _ => by simp [commonPrefixLen]
  | _ :: _, [] => by simp [commonPrefixLen]
  | x :: xs, y :: ys => by
    unfold commonPrefixLen
    by_cases h : x = y
    · simpa [h] using commonPrefixLen_le_right xs ys
    · simp [h]

/-- The block returned by `find_longest_match` stays inside both
strings. -/
theorem find_longest_match_bounds (a b : Str) :
    (find_longest_match a b).1 + (find_longest_match a b).2.2 ≤ a.length ∧
      (find_longest_match a b).2.1 + (find_longest_match a b).2.2 ≤ b.length := by
  unfold find_longest_match
  refine foldl_preserve
    (fun t : Nat × Nat × Nat => t.1 + t.2.2 ≤ a.length ∧ t.2.1 + t.2.2 ≤ b.length)
    (flmPick a b) _ _ ⟨Nat.zero_le _, Nat.zero_le _⟩ ?_
  intro t p hp ht
  unfold flmPick
  by_cases hk : t.2.2 < commonPrefixLen (a.drop p.1) (b.drop p.2)
  · rw [if_pos hk]
    obtain ⟨i, hi, hj⟩ := List.mem_flatMap.mp hp
    obtain ⟨j, hjr, rfl⟩ := List.mem_map.mp hj
    have hia : i < a.length := List.mem_range.mp hi
    have hjb : j < b.length := List.mem_range.mp hjr
    have h1 := commonPrefixLen_le_left (a.drop i) (b.drop j)
    have h2 := commonPrefixLen_le_right (a.drop i) (b.drop j)
    rw [List.length_drop] at h1
    rw [List.length_drop] at h2
    exact ⟨by simp; omega, by simp; omega⟩
  · rw [if_neg hk]; exact ht

theorem matchTotalAux_nil (f : Nat) : matchTotalAux f [] [] = 0 := by
  cases f with
  | zero => rfl
  | succ g =>
    have h : find_longest_match [] [] = (0, 0, 0) := rfl
    simp [matchTotalAux, h]

/-- Any fuel at least the summed length computes the same value: the fuel
`a.length + b.length` used by `matchingTotal` is sufficient. -/
theorem matchTotalAux_congr :
    ∀ (f1 : Nat) (a b : Str) (f2 : Nat), a.length + b.length ≤ f1 →
      a.length + b.length ≤ f2 → matchTotalAux f1 a b = matchTotalAux f2 a b := by
  intro f1
  induction f1 with
  | zero =>
    intro a b f2 h1 _
    have ha : a = [] := List.length_eq_zero.mp (by omega)
    have hb : b = [] := List.length_eq_zero.mp (by omega)
    subst ha; subst hb
    rw [matchTotalAux_nil, matchTotalAux_nil]
  | succ g ih =>
    intro a b f2 h1 h2
    cases f2 with
    | zero =>
      have ha : a = [] := List.length_eq_zero.mp (by omega)
      have hb : b = [] := List.length_eq_zero.mp (by omega)
      subst ha; subst hb
      rw [matchTotalAux_nil, matchTotalAux_nil]
    | succ f =>
      simp only [matchTotalAux]
      by_cases hk : (find_longest_match a b).2.2 = 0
      · simp [hk]
      · have hb := find_longest_match_bounds a b
        have hti : min (find_longest_match a b).1 a.length = (find_longest_match a b).1 :=
          Nat.min_eq_left (by omega)
        have htj :
            min (find_longest_match a b).2.1 b.length = (find_longest_match a b).2.1 :=
          Nat.min_eq_left (by omega)
        rw [if_neg hk, if_neg hk]
        have e1 := ih (a.take (find_longest_match a b).1)
          (b.take (find_longest_match a b).2.1) f
          (by simp [List.length_take]; omega) (by simp [List.length_take]; omega)
        have e2 := ih (a.drop ((find_longest_match a b).1 + (find_longest_match a b).2.2))
          (b.drop ((find_longest_match a b).2.1 + (find_longest_match a b).2.2)) f
          (by simp [List.length_drop]; omega) (by simp [List.length_drop]; omega)
        rw [e1, e2]

/-- `matchingTotal` satisfies the Ratcliff/Obershelp recurrence, so the
fuel embedding computes exactly the difflib recursion. -/
theorem matchingTotal_eq (a b : Str) :
    matchingTotal a b =
      if (find_longest_match a b).2.2 = 0 then 0
      else
        matchingTotal (a.take (find_longest_match a b).1)
            (b.take (find_longest_match a b).2.1) +
          (find_longest_match a b).2.2 +
          matchingTotal
            (a.drop ((find_longest_match a b).1 + (find_longest_match a b).2.2))
            (b.drop ((find_longest_match a b).2.1 + (find_longest_match a b).2.2)) := by
  conv_lhs => rw [matchingTotal]
  rw [matchTotalAux_congr (a.length + b.length) a b (a.length + b.length + 1)
    (Nat.le_refl _) (Nat.le_succ _)]
  simp only [matchTotalAux]
  by_cases hk : (find_longest_match a b).2.2 = 0
  · simp [hk]
  · rw [if_neg hk, if_neg hk]
    have hb := find_longest_match_bounds a b
    unfold matchingTotal
    congr 1
    · congr 1
      exact matchTotalAux_congr _ _ _ _ (by simp [List.length_take]; omega) (Nat.le_refl _)
    · exact matchTotalAux_congr _ _ _ _ (by simp [List.length_drop]; omega) (Nat.le_refl _)

theorem ratioPair_den_pos (x y : Str) : 0 < (ratioPair x y).2 := by
  unfold ratioPair
  by_cases h : x.length + y.length = 0
  · rw [if_pos h]; exact Nat.one_pos
  · rw [if_neg h]; omega

/-- The cross-multiplied cutoff test decides `0.7 ≤ ratio`. -/
theorem cutoff_iff (k q : Str) :
    ratioGeCutoff k q = true ↔ (7 : ℚ) / 10 ≤ ratioQ k q := by
  have hd : (0 : ℚ) < ((ratioPair k q).2 : ℚ) := by
    exact_mod_cast ratioPair_den_pos k q
  unfold ratioGeCutoff ratioQ
  rw [decide_eq_true_iff, div_le_div_iff₀ (by norm_num) hd,
    mul_comm ((ratioPair k q).1 : ℚ) 10]
  exact_mod_cast Iff.rfl

/-- The cross-multiplied strict test decides comparison of two ratios. -/
theorem ratioLt_iff (x b q : Str) :
    ratioLtRatio x b q = true ↔ ratioQ x q < ratioQ b q := by
  have hdx : (0 : ℚ) < ((ratioPair x q).2 : ℚ) := by
    exact_mod_cast ratioPair_den_pos x q
  have hdb : (0 : ℚ) < ((ratioPair b q).2 : ℚ) := by
    exact_mod_cast ratioPair_den_pos b q
  unfold ratioLtRatio ratioQ
  rw [decide_eq_true_iff, div_lt_div_iff₀ hdx hdb]
  exact_mod_cast Iff.rfl

/-- The cross-multiplied equality test decides equality of two ratios. -/
theorem ratioEq_iff (x b q : Str) :
    ratioEqRatio x b q = true ↔ ratioQ x q = ratioQ b q := by
  have hdx : (0 : ℚ) < ((ratioPair x q).2 : ℚ) := by
    exact_mod_cast ratioPair_den_pos x q
  have hdb : (0 : ℚ) < ((ratioPair b q).2 : ℚ) := by
    exact_mod_cast ratioPair_den_pos b q
  unfold ratioEqRatio ratioQ
  rw [decide_eq_true_iff, div_eq_div_iff (ne_of_gt hdx) (ne_of_gt hdb)]
  exact_mod_cast Iff.rfl

theorem beats_le {q x b : Str} (h : beats q x b = true) : ratioQ b q ≤ ratioQ x q := by
  unfold beats at h
  by_cases h1 : ratioLtRatio b x q
  · exact le_of_lt ((ratioLt_iff b x q).mp h1)
  · rw [if_neg h1] at h
    by_cases h2 : ratioEqRatio x b q
    · exact le_of_eq ((ratioEq_iff x b q).mp h2).symm
    · rw [if_neg h2] at h; exact absurd h (by simp)

theorem beats_ge {q x b : Str} (h : ¬ beats q x b = true) : ratioQ x q ≤ ratioQ b q := by
  by_cases h1 : ratioLtRatio b x q
  · exact absurd (by unfold beats; rw [if_pos h1]) h
  · exact le_of_not_lt (fun hc => h1 ((ratioLt_iff b x q).mpr hc))

theorem gcmStep_none {q : Str} {acc : Option Str} {k : Str}
    (h : gcmStep q acc k = none) :
    acc = none ∧ ¬ ((7 : ℚ) / 10 ≤ ratioQ k q) := by
  unfold gcmStep at h
  by_cases he : ratioGeCutoff k q
  · rw [if_pos he] at h
    cases acc with
    | none => exact absurd h (by simp)
    | some b =>
      by_cases hb : beats q k b <;> simp [hb] at h
  · rw [if_neg he] at h
    exact ⟨h, fun hc => he ((cutoff_iff k q).mpr hc)⟩

theorem gcmStep_some {q : Str} {acc : Option Str} {k w : Str}
    (h : gcmStep q acc k = some w) : w = k ∨ acc = some w := by
  unfold gcmStep at h
  by_cases he : ratioGeCutoff k q
  · rw [if_pos he] at h
    cases acc with
    | none => exact Or.inl (Option.some_injective _ h).symm
    | some b =>
      by_cases hb : beats q k b
      · simp [hb] at h; exact Or.inl h.symm
      · simp [hb] at h; exact Or.inr (by rw [h])
  · rw [if_neg he] at h; exact Or.inr h

/-- An empty fuzzy result means no key reaches the cutoff. -/
theorem gcmFold_none (q : Str) :
    ∀ (keys : List Str) (acc : Option Str),
      keys.foldl (gcmStep q) acc = none →
      acc = none ∧ ∀ k ∈ keys, ¬ ((7 : ℚ) / 10 ≤ ratioQ k q)
  | [], _, h => ⟨h, by simp⟩
  | k :: ks, acc, h => by
    simp only [List.foldl_cons] at h
    have ih := gcmFold_none q ks (gcmStep q acc k) h
    have hs := gcmStep_none ih.1
    refine ⟨hs.1, ?_⟩
    intro k' hk'
    rcases List.mem_cons.mp hk' with rfl | hk'
    · exact hs.2
    · exact ih.2 k' hk'

theorem gcmFold_some_mem (q : Str) :
    ∀ (keys : List Str) (acc : Option Str) (w : Str),
      keys.foldl (gcmStep q) acc = some w → w ∈ keys ∨ acc = some w
  | [], _, _, h => Or.inr h
  | k :: ks, acc, w, h => by
    simp only [List.foldl_cons] at h
    rcases gcmFold_some_mem q ks (gcmStep q acc k) w h with hm | hacc
    · exact Or.inl (List.mem_cons_of_mem k hm)
    · rcases gcmStep_some hacc with rfl | h2
      · exact Or.inl (List.mem_cons_self _ _)
      · exact Or.inr h2

theorem gcmStep_pres {q : Str} {acc : Option Str} {k : Str}
    (h : ∀ b, acc = some b → (7 : ℚ) / 10 ≤ ratioQ b q) :
    ∀ b, gcmStep q acc k = some b → (7 : ℚ) / 10 ≤ ratioQ b q := by
  intro b hb
  unfold gcmStep at hb
  by_cases he : ratioGeCutoff k q
  · rw [if_pos he] at hb
    cases acc with
    | none =>
      rw [← Option.some_injective _ hb]
      exact (cutoff_iff k q).mp he
    | some b0 =>
      by_cases h2 : beats q k b0
      · simp [h2] at hb; rw [← hb]; exact (cutoff_iff k q).mp he
      · simp [h2] at hb; rw [← hb]; exact h b0 rfl
  · rw [if_neg he] at hb; exact h b hb

/-- The fuzzy winner reaches the cutoff. -/
theorem gcmFold_elig (q : Str) :
    ∀ (keys : List Str) (acc : Option Str) (w : Str),
      (∀ b, acc = some b → (7 : ℚ) / 10 ≤ ratioQ b q) →
      keys.foldl (gcmStep q) acc = some w → (7 : ℚ) / 10 ≤ ratioQ w q
  | [], _, w, hacc, h => hacc w h
  | k :: ks, acc, w, hacc, h => by
    simp only [List.foldl_cons] at h
    exact gcmFold_elig q ks (gcmStep q acc k) w (gcmStep_pres hacc) h

/-- The fuzzy winner has maximal ratio among the scanned keys (and beats
the incumbent). -/
theorem gcmFold_max (q : Str) :
    ∀ (keys : List Str) (acc : Option Str) (w : Str),
      keys.foldl (gcmStep q) acc = some w →
      (∀ b, acc = some b → ratioQ b q ≤ ratioQ w q) ∧
        ∀ k ∈ keys, ratioQ k q ≤ ratioQ w q ∨ ¬ ((7 : ℚ) / 10 ≤ ratioQ k q)
  | [], acc, w, h => by
    refine ⟨?_, by simp⟩
    intro b hb
    simp only [List.foldl_nil] at h
    rw [hb] at h
    exact le_of_eq (by rw [Option.some_injective _ h])
  | k :: ks, acc, w, h => by
    simp only [List.foldl_cons] at h
    have ih := gcmFold_max q ks (gcmStep q acc k) w h
    by_cases he : ratioGeCutoff k q
    · have hstep : ∀ b, acc = some b → ratioQ b q ≤ ratioQ w q := by
        intro b hb
        subst hb
        have hk : gcmStep q (some b) k =
            (if beats q k b then some k else some b) := by
          unfold gcmStep; rw [if_pos he]
        by_cases h2 : beats q k b
        · have := ih.1 k (by rw [hk]; simp [h2])
          exact le_trans (beats_le h2) this
        · exact ih.1 b (by rw [hk]; simp [h2])
      have hkle : ratioQ k q ≤ ratioQ w q := by
        cases hacc : acc with
        | none =>
          have hk : gcmStep q none k = some k := by unfold gcmStep; rw [if_pos he]
          exact ih.1 k (by rw [hacc] at h ⊢; rw [hk])
        | some b =>
          have hk : gcmStep q (some b) k =
              (if beats q k b then some k else some b) := by
            unfold gcmStep; rw [if_pos he]
          by_cases h2 : beats q k b
          · exact ih.1 k (by rw [hacc, hk]; simp [h2])
          · exact le_trans (beats_ge h2) (ih.1 b (by rw [hacc, hk]; simp [h2]))
      refine ⟨hstep, ?_⟩
      intro k' hk'
      rcases List.mem_cons.mp hk' with rfl | hk'
      · exact Or.inl hkle
      · exact ih.2 k' hk'
    · have hacc : gcmStep q acc k = acc := by unfold gcmStep; rw [if_neg he]
      rw [hacc] at ih
      refine ⟨ih.1, ?_⟩
      intro k' hk'
      rcases List.mem_cons.mp hk' with rfl | hk'
      · exact Or.inr (fun hc => he ((cutoff_iff k' q).mpr hc))
      · exact ih.2 k' hk'

/-- `firstDedup` preserves exactly the members. -/
theorem mem_firstDedup_aux (x : Str) :
    ∀ (l : List Str) (acc : List Str),
      (x ∈ l.foldl (fun t k => if k ∈ t then t else t ++ [k]) acc ↔ x ∈ acc ∨ x ∈ l)
  | [], acc => by simp
  | k :: ks, acc => by
    simp only [List.foldl_cons]
    rw [mem_firstDedup_aux x ks]
    by_cases h : k ∈ acc
    · rw [if_pos h]
      constructor
      · rintro (hx | hx)
        · exact Or.inl hx
        · exact Or.inr (List.mem_cons_of_mem k hx)
      · rintro (hx | hx)
        · exact Or.inl hx
        · rcases List.mem_cons.mp hx with rfl | hx
          · exact Or.inl h
          · exact Or.inr hx
    · rw [if_neg h]
      simp only [List.mem_append, List.mem_singleton, List.mem_cons,
        List.not_mem_nil, or_false]
      tauto

theorem mem_firstDedup {x : Str} {l : List Str} : x ∈ firstDedup l ↔ x ∈ l := by
  unfold firstDedup
  rw [mem_firstDedup_aux x l []]
  simp

/-- A key present among the customers' normalized names is found by the
dict lookup, and the result carries that key. -/
theorem lastWithKey_of_mem {customers : List Customer} {w : Str}
    (h : w ∈ customers.map (fun c => normalize_for_comparison c.name)) :
    ∃ c, lastWithKey customers w = some c ∧ c ∈ customers ∧
      normalize_for_comparison c.name = w := by
  obtain ⟨c0, hc0, hk0⟩ := List.mem_map.mp h
  have hrev : c0 ∈ customers.reverse := List.mem_reverse.mpr hc0
  have hsome : (customers.reverse.find?
      (fun c => decide (normalize_for_comparison c.name = w))).isSome := by
    rw [List.find?_isSome]
    exact ⟨c0, hrev, by simp [hk0]⟩
  obtain ⟨c, hc⟩ := Option.isSome_iff_exists.mp hsome
  refine ⟨c, hc, List.mem_reverse.mp (List.mem_of_find?_eq_some hc), ?_⟩
  have := List.find?_some hc
  simpa using this

/-- Splitting commutes with a code-point map that preserves
whitespace-ness. -/
theorem splitWSAux_map {f : Nat → Nat} (hf : ∀ c, isWS (f c) = isWS c) :
    ∀ s acc : Str,
      splitWSAux (s.map f) (acc.map f) = (splitWSAux s acc).map (List.map f)
  | [], acc => by
    by_cases h : acc = []
    · subst h; simp [splitWSAux]
    · have h2 : acc.map f ≠ [] := fun hh => h (List.map_eq_nil_iff.mp hh)
      simp only [List.map_nil, splitWSAux, if_neg h, if_neg h2]
      simp [List.map_reverse]
  | c :: rest, acc => by
    by_cases hw : isWS c
    · by_cases h : acc = []
      · subst h
        have ih := splitWSAux_map hf rest []
        simp only [List.map_cons, List.map_nil, splitWSAux, hf c, hw] at ih ⊢
        simpa using ih
      · have h2 : acc.map f ≠ [] := fun hh => h (List.map_eq_nil_iff.mp hh)
        have ih := splitWSAux_map hf rest []
        simp only [List.map_nil] at ih
        simp only [List.map_cons, splitWSAux, hf c, hw, if_true, if_neg h, if_neg h2]
        simp [List.map_reverse, ih]
    · have ih := splitWSAux_map hf rest (c :: acc)
      simp only [List.map_cons] at ih
      simp only [List.map_cons, splitWSAux, hf c, hw]
      simpa using ih

/-- Joining with spaces commutes with a code-point map fixing the space. -/
theorem joinSpace_map {f : Nat → Nat} (h32 : f 32 = 32) :
    ∀ ws : List Str, joinSpace (ws.map (List.map f)) = (joinSpace ws).map f
  | [] => rfl
  | [_] => by simp [joinSpace]
  | w :: w2 :: ws => by
    have ih := joinSpace_map h32 (w2 :: ws)
    simp only [List.map_cons] at ih ⊢
    simp [joinSpace, ih, h32]

theorem flatMap_casefold_map {f : Nat → Nat}
    (hf : ∀ c, casefoldChar (f c) = casefoldChar c) :
    ∀ s : Str, (s.map f).flatMap casefoldChar = s.flatMap casefoldChar
  | [] => rfl
  | c :: rest => by
    simp [List.flatMap_cons, hf c, flatMap_casefold_map hf rest]

/-- A code-point map that preserves whitespace-ness, fixes the space and
is invisible to `casefold` never changes the normalized key. -/
theorem normalize_map {f : Nat → Nat} (hws : ∀ c, isWS (f c) = isWS c)
    (h32 : f 32 = 32) (hcf : ∀ c, casefoldChar (f c) = casefoldChar c) (s : Str) :
    normalize_for_comparison (s.map f) = normalize_for_comparison s := by
  unfold normalize_for_comparison nfkc splitWS
  have h1 := splitWSAux_map hws s []
  simp only [List.map_nil] at h1
  rw [h1, joinSpace_map h32]
  exact flatMap_casefold_map hcf _

theorem commaToDot_idem : ∀ s : Str, commaToDot (commaToDot s) = commaToDot s
  | [] => rfl
  | c :: rest => by
    have ih := commaToDot_idem rest
    unfold commaToDot at ih ⊢
    by_cases h : c = 44 <;> simp [h, ih]

theorem write_receipt_atomic_frame (fs : FS) (path : PathName) (content : Str)
    (fail : WFail) (q : PathName) (hq1 : q ≠ path) (hq2 : q.suffix ≠ tmpSuffix) :
    (write_receipt_atomic fs path content fail).fs q = fs q := by
  have hqt : q ≠ withSuffix path tmpSuffix := fun hh => hq2 (by rw [hh]; rfl)
  cases fail <;> simp [write_receipt_atomic, fsUpdate, fsReplace, hq1, hqt]

/-!
## Claim theorems
-/

/-- C3: the claim states `normalize(display(n)) = normalize(n)` for every
name.  The code violates it: `display` turns the word `"i"` into `"İ"`
(U+0130), and `casefold` maps `"İ"` to `"i"` + U+0307, so the displayed
form of `"i"` normalizes to a different key than `"i"` itself. -/
theorem C3_display_changes_key_at_i :
    format_for_display [105] = [304] ∧
    normalize_for_comparison (format_for_display [105]) = [105, 775] ∧
    normalize_for_comparison [105] = [105] ∧
    normalize_for_comparison (format_for_display [105]) ≠ normalize_for_comparison [105] := by
  decide

/-- C4 counterexample: the claim states that under the code's fold `"İ"`
folds together with `"i"` and `"I"` folds together with `"ı"`; in fact
`casefold` gives `"İ"` ↦ `"i"`+U+0307 ≠ `"i"` and `"I"` ↦ `"i"` ≠ `"ı"`,
so both asserted identifications fail. -/
theorem C4_counterexample_fold_pairs :
    normalize_for_comparison [304] ≠ normalize_for_comparison [105] ∧
    normalize_for_comparison [73] ≠ normalize_for_comparison [305] := by
  decide

/-- C4 (amended): `normalize` NFKC-normalizes, collapses internal
whitespace to single spaces, trims the ends and applies Python's default
`casefold`: `"I"` folds together with `"i"` (replacing every `I` by `i`
never changes a key), while `"İ"` folds to `"i"`+U+0307 and `"ı"` to
itself, so `"i"`, `"İ"`, `"ı"` have pairwise distinct keys — the fold is
not a plain ASCII lowercasing, but it is not Turkish-locale-aware
either. -/
theorem C4_normalize_default_casefold :
    (∀ s : Str, normalize_for_comparison (mapItoi s) = normalize_for_comparison s) ∧
    normalize_for_comparison [304] = [105, 775] ∧
    normalize_for_comparison [305] = [305] ∧
    normalize_for_comparison [73] = [105] ∧
    normalize_for_comparison [304] ≠ normalize_for_comparison [105] ∧
    normalize_for_comparison [73] ≠ normalize_for_comparison [305] ∧
    normalize_for_comparison [32, 32, 97, 9, 108, 105, 9, 10, 98, 32] =
      [97, 32, 108, 105, 32, 98] := by
  refine ⟨?_, by decide, by decide, by decide, by decide, by decide, by decide⟩
  intro s
  unfold mapItoi
  refine normalize_map ?_ ?_ ?_ s
  · intro c
    by_cases h : c = 73
    · subst h; decide
    · simp [h]
  · rfl
  · intro c
    by_cases h : c = 73
    · subst h; decide
    · simp [h]

/-- C5: the claim states that a second add of a name differing only by
case yields a `DuplicateError` and one stored customer.  The code checks
the normalized raw input against the stored keys but stores the
display-cased form, whose key can differ: adding `"i"` stores `"İ"` (key
`"i"`+U+0307), and the subsequent add of `"I"` (normalized key `"i"`)
passes the duplicate check, so both adds succeed and two customers named
`"İ"` are stored. -/
theorem C5_case_variants_both_added :
    (add_new_customer ⟨[], fun _ => none⟩ [105]).2 = AddResult.ok ∧
    (add_new_customer (add_new_customer ⟨[], fun _ => none⟩ [105]).1 [73]).2 =
      AddResult.ok ∧
    (add_new_customer (add_new_customer ⟨[], fun _ => none⟩ [105]).1 [73]).1.customers.map
        Customer.name = [[304], [304]] := by
  decide

/-- C6: the claim states the directory never holds two entries with equal
normalized names in any state reachable from empty via load/add/remove.
The state reached by adding `"i"` (raw code point 105) and then `"I"`
(73) holds two entries both stored as `"İ"`, violating the invariant. -/
theorem C6_invariant_violated_on_reachable_state :
    Reach (add_new_customer (add_new_customer ⟨[], fun _ => none⟩ [105]).1 [73]).1 ∧
    ¬ DupFree
        (add_new_customer (add_new_customer ⟨[], fun _ => none⟩ [105]).1 [73]).1.customers := by
  constructor
  · exact Reach.add _ [73] (Reach.add _ [105] Reach.init)
  · decide

/-- C7: for nonnegative weight, unit price and VAT rate, the totals
computation is the pure function returning `net = weight * price`,
`vatAmount = net * vatRate`, `total = net + vatAmount`; zero inputs give
`net = 0` without error, and `computeTotals 10 5 0.02 = (50, 1, 51)`. -/
theorem C7_compute_totals (weight price vat_rate : ℚ) (hw : 0 ≤ weight)
    (hp : 0 ≤ price) (hr : 0 ≤ vat_rate) :
    (computeTotals weight price vat_rate).net = weight * price ∧
    (computeTotals weight price vat_rate).vatAmount =
      (computeTotals weight price vat_rate).net * vat_rate ∧
    (computeTotals weight price vat_rate).total =
      (computeTotals weight price vat_rate).net +
        (computeTotals weight price vat_rate).vatAmount ∧
    (weight = 0 ∨ price = 0 → (computeTotals weight price vat_rate).net = 0) ∧
    computeTotals 10 5 (2 / 100) = ⟨50, 1, 51⟩ := by
  refine ⟨rfl, rfl, rfl, ?_, by norm_num [computeTotals, Totals.mk.injEq]⟩
  rintro (rfl | rfl) <;> simp [computeTotals]

/-- C7 witness: the theorem applied at the spec's concrete test. -/
theorem C7_compute_totals_witness : computeTotals 10 5 (2 / 100) = ⟨50, 1, 51⟩ :=
  (C7_compute_totals 10 5 (2 / 100) (by norm_num) (by norm_num) (by norm_num)).2.2.2.2

/-- C8: `_parse_number` treats `','` exactly as `'.'` (replacing commas by
dots first never changes the result), parses `"12,5"` and `"12.5"` to the
same value 12.5, and returns 0.0 rather than raising on the empty string
and on every other malformed input — including the strings `"_5"`,
`"1e_5"` and `"1._5"`, whose underscores violate PEP 515's
between-digits rule and make `float()` raise, while the well-formed
`"1_0"` parses to 10. -/
theorem C8_parse_number_comma_and_fallback :
    (∀ s : Str, parse_number s = parse_number (commaToDot s)) ∧
    parse_number [49, 50, 44, 53] = .fin (25 / 2) ∧
    parse_number [49, 50, 46, 53] = .fin (25 / 2) ∧
    parse_number [] = .fin 0 ∧
    parse_number [95, 53] = .fin 0 ∧
    parse_number [49, 101, 95, 53] = .fin 0 ∧
    parse_number [49, 46, 95, 53] = .fin 0 ∧
    parse_number [49, 95, 48] = .fin 10 ∧
    (∀ s : Str, pyFloatOfStr (commaToDot s) = none → parse_number s = .fin 0) := by
  have hval : parse_number [49, 50, 46, 53] = .fin (25 / 2) := by
    unfold parse_number
    rw [if_neg (by decide)]
    norm_num [commaToDot, pyFloatOfStr, pyStrip, isWS, parseBody, asciiLower,
      parseDecimal, digitRunAux, digitRunCont, isDigit, natOfDigits, parseExpPart]
  have hval2 : parse_number [49, 50, 44, 53] = .fin (25 / 2) := by
    rw [show parse_number [49, 50, 44, 53] = parse_number [49, 50, 46, 53] from rfl]
    exact hval
  have hten : parse_number [49, 95, 48] = .fin 10 := by
    unfold parse_number
    rw [if_neg (by decide)]
    norm_num [commaToDot, pyFloatOfStr, pyStrip, isWS, parseBody, asciiLower,
      parseDecimal, digitRunAux, digitRunCont, isDigit, natOfDigits, parseExpPart]
    rw [if_neg (show ¬([1, 0] = ([] : List Nat)) from by decide)]
  refine ⟨?_, hval2, hval, rfl, rfl, rfl, rfl, hten, ?_⟩
  · intro s
    unfold parse_number
    by_cases hs : s = []
    · subst hs; rfl
    · have h2 : commaToDot s ≠ [] := fun hh => hs (List.map_eq_nil_iff.mp hh)
      rw [if_neg hs, if_neg h2, commaToDot_idem]
  · intro s h
    unfold parse_number
    by_cases hs : s = []
    · simp [hs]
    · rw [if_neg hs, h]

/-- C8 witness: the malformed-input clause of the theorem applied at the
concrete input `"abc"`. -/
theorem C8_parse_number_witness : parse_number [97, 98, 99] = .fin 0 :=
  C8_parse_number_comma_and_fallback.2.2.2.2.2.2.2.2 [97, 98, 99] (by decide)

/-- C9 counterexample: the claim states `removeCustomer` returns a
boolean indicating whether anything was removed; removing the sole
customer `"ali"` does remove it, yet the function returns Python `None`
(modelled `none`), not a boolean. -/
theorem C9_counterexample_no_boolean :
    (remove_selected_customer ⟨[⟨[97, 108, 105], [], []⟩], fun _ => none⟩
        [97, 108, 105]).1.customers = [] ∧
    (remove_selected_customer ⟨[⟨[97, 108, 105], [], []⟩], fun _ => none⟩
        [97, 108, 105]).2 = none := by
  exact ⟨by decide, rfl⟩

/-- C9 (amended): `removeCustomer` removes every entry whose normalized
name equals the normalized target (keeping exactly the others, in order)
and persists the directory, but returns no value (Python `None`), so the
caller is not told whether anything was removed. -/
theorem C9_remove_all_persist_no_return (st : AppState) (name : Str) :
    (∀ c ∈ (remove_selected_customer st name).1.customers,
        normalize_for_comparison c.name ≠ normalize_for_comparison name) ∧
    (∀ c ∈ st.customers,
        normalize_for_comparison c.name ≠ normalize_for_comparison name →
          c ∈ (remove_selected_customer st name).1.customers) ∧
    (remove_selected_customer st name).1.customers =
      st.customers.filter
        (fun c =>
          decide (normalize_for_comparison c.name ≠ normalize_for_comparison name)) ∧
    (remove_selected_customer st name).1.fs CUSTOMER_FILE =
      some (.jsonDir (remove_selected_customer st name).1.customers) ∧
    (remove_selected_customer st name).2 = none := by
  refine ⟨?_, ?_, rfl, ?_, rfl⟩
  · intro c hc
    have := (List.mem_filter.mp hc).2
    exact of_decide_eq_true this
  · intro c hc hne
    exact List.mem_filter.mpr ⟨hc, decide_eq_true hne⟩
  · simp [remove_selected_customer, save_customers, fsUpdate]

/-- C9 witness: the removal clauses of the theorem applied to a concrete
directory holding `"b"` with target `"a"`. -/
theorem C9_remove_witness :
    normalize_for_comparison [98] ≠ normalize_for_comparison [97] ∧
    (remove_selected_customer ⟨[⟨[98], [], []⟩], fun _ => none⟩ [97]).2 = none := by
  refine ⟨?_, (C9_remove_all_persist_no_return ⟨[⟨[98], [], []⟩], fun _ => none⟩ [97]).2.2.2.2⟩
  exact (C9_remove_all_persist_no_return ⟨[⟨[98], [], []⟩], fun _ => none⟩ [97]).1
    ⟨[98], [], []⟩ (by decide)

/-- C2 counterexample: the claim quantifies over every path, but for a
target whose own suffix is ".tmp", `with_suffix('.tmp')` maps the path to
itself, so the "temporary" file *is* the target: a failure during the
write (here: previous content "x", new content "ab", one code point
written) leaves partial content "a" at the final path — neither absent,
nor the full previous content, nor the full new content. -/
theorem C2_counterexample_tmp_path :
    (write_receipt_atomic
        (fsUpdate (fun _ => none) ⟨[114], tmpSuffix⟩ (some (.textFile [120])))
        ⟨[114], tmpSuffix⟩ [97, 98] (.duringWrite 1)).fs ⟨[114], tmpSuffix⟩ =
      some (.textFile [97]) ∧
    some (FileData.textFile [97]) ≠
      fsUpdate (fun _ => none) ⟨[114], tmpSuffix⟩ (some (.textFile [120]))
        ⟨[114], tmpSuffix⟩ ∧
    some (FileData.textFile [97]) ≠ none ∧
    some (FileData.textFile [97]) ≠ some (FileData.textFile [97, 98]) := by
  refine ⟨by decide, by decide, by decide, by decide⟩

/-- C2 (amended): for every path whose suffix is not ".tmp" (for a path
already ending in ".tmp" the temporary sibling coincides with the target
and a mid-write failure can leave partial content there — see the
counterexample), the atomic-write protocol holds: on success the final
path holds exactly the full content; on any failure the final path is
exactly as before (absent, or its full previous content), the error is
recorded to the diagnostic log, and the exception is re-raised to the
caller, never silently swallowed. -/
theorem C2_atomic_write_protocol (fs : FS) (path : PathName) (content : Str)
    (fail : WFail) (h : path.suffix ≠ tmpSuffix) :
    (fail = .noFail →
      (write_receipt_atomic fs path content fail).result = .ok ∧
      (write_receipt_atomic fs path content fail).fs path =
        some (.textFile content)) ∧
    (fail ≠ .noFail →
      (write_receipt_atomic fs path content fail).result = .ioError ∧
      (write_receipt_atomic fs path content fail).fs path = fs path ∧
      (write_receipt_atomic fs path content fail).log = [.atomicWriteFailed]) := by
  have hpt : ¬ path = withSuffix path tmpSuffix :=
    fun hh => h (congrArg PathName.suffix hh)
  cases fail with
  | noFail =>
    refine ⟨fun _ => ⟨rfl, ?_⟩, fun hne => absurd rfl hne⟩
    simp [write_receipt_atomic, fsReplace, fsUpdate]
  | duringWrite k =>
    refine ⟨fun hh => by simp at hh, fun _ => ⟨rfl, ?_, rfl⟩⟩
    simp [write_receipt_atomic, fsUpdate, hpt]
  | atRename =>
    refine ⟨fun hh => by simp at hh, fun _ => ⟨rfl, ?_, rfl⟩⟩
    simp [write_receipt_atomic, fsUpdate, hpt]

/-- C2 witness: the failure clause of the protocol at a concrete ".txt"
path on an empty filesystem with a rename failure. -/
theorem C2_atomic_write_witness :
    (write_receipt_atomic (fun _ => none) ⟨[114], [46, 116, 120, 116]⟩ [97]
        .atRename).result = WResult.ioError ∧
    (write_receipt_atomic (fun _ => none) ⟨[114], [46, 116, 120, 116]⟩ [97]
        .atRename).fs ⟨[114], [46, 116, 120, 116]⟩ = none ∧
    (write_receipt_atomic (fun _ => none) ⟨[114], [46, 116, 120, 116]⟩ [97]
        .atRename).log = [LogEntry.atomicWriteFailed] := by
  have h := (C2_atomic_write_protocol (fun _ => none) ⟨[114], [46, 116, 120, 116]⟩
    [97] .atRename (by decide)).2 (by decide)
  exact ⟨h.1, h.2.1, h.2.2⟩

/-- C10 counterexample: the receipt save path is chosen by the user, and
choosing the customers JSON file itself makes the print/save action
overwrite that file with receipt text, so "the customers JSON file is
unchanged by the whole print/save action" fails as universally stated. -/
theorem C10_counterexample_save_over_customers_file :
    (print_receipt
        ⟨[⟨[97, 108, 105], [], []⟩],
          fsUpdate (fun _ => none) CUSTOMER_FILE
            (some (.jsonDir [⟨[97, 108, 105], [], []⟩]))⟩
        [97, 108, 105] [] [] 10 5 strPazarci CUSTOMER_FILE .noFail).1.fs CUSTOMER_FILE ≠
      fsUpdate (fun _ => none) CUSTOMER_FILE
        (some (.jsonDir [⟨[97, 108, 105], [], []⟩])) CUSTOMER_FILE := by
  simp only [print_receipt]
  rw [if_neg (by decide), if_neg (by norm_num), if_neg (by norm_num)]
  decide

/-- C10 (amended): provided the user-chosen save path is not the
customers JSON file itself, submitting a receipt never mutates the
customer directory: the in-memory customer list and the customers JSON
file are unchanged by the whole print/save action, and when the typed
name matches no stored customer the receipt is built from a transient
display-cased record that is used for the receipt text only. -/
theorem C10_print_receipt_frame (st : AppState) (typedName itemType pieceCount : Str)
    (weight price : ℚ) (role : Str) (savePath : PathName) (fail : WFail)
    (h : savePath ≠ CUSTOMER_FILE) :
    (print_receipt st typedName itemType pieceCount weight price role savePath
        fail).1.customers = st.customers ∧
    (print_receipt st typedName itemType pieceCount weight price role savePath
        fail).1.fs CUSTOMER_FILE = st.fs CUSTOMER_FILE ∧
    (pyStrip typedName ≠ [] → ¬ weight ≤ 0 → ¬ price ≤ 0 → fail = WFail.noFail →
      find_customer_by_name st.customers (pyStrip typedName) = none →
      (print_receipt st typedName itemType pieceCount weight price role savePath
          fail).1.fs savePath =
        some (.textFile (encodeReceipt (generate_receipt_data role
          ⟨format_for_display (pyStrip typedName), [], []⟩ itemType pieceCount
          weight price (roleVat role))))) := by
  have hq1 : CUSTOMER_FILE ≠ savePath := fun hh => h hh.symm
  have hq2 : CUSTOMER_FILE.suffix ≠ tmpSuffix := by decide
  simp only [print_receipt]
  by_cases h1 : pyStrip typedName = []
  · rw [if_pos h1]
    exact ⟨rfl, rfl, fun hc => absurd h1 hc⟩
  · rw [if_neg h1]
    by_cases h2 : weight ≤ 0
    · rw [if_pos h2]
      exact ⟨rfl, rfl, fun _ hc => absurd h2 hc⟩
    · rw [if_neg h2]
      by_cases h3 : price ≤ 0
      · rw [if_pos h3]
        exact ⟨rfl, rfl, fun _ _ hc => absurd h3 hc⟩
      · rw [if_neg h3]
        refine ⟨rfl, ?_, ?_⟩
        · exact write_receipt_atomic_frame st.fs savePath _ fail CUSTOMER_FILE hq1 hq2
        · intro _ _ _ hf hfind
          subst hf
          rw [hfind]
          simp [write_receipt_atomic, fsReplace, fsUpdate]

/-- C10 witness: the frame theorem at a concrete state (one stored
customer "veli"), typed name "bob" matching nothing, and a ".txt" save
path. -/
theorem C10_print_receipt_frame_witness :
    (print_receipt ⟨[⟨[118, 101, 108, 105], [], []⟩], fun _ => none⟩ [98, 111, 98]
        [] [] 1 2 strPazarci ⟨[114], [46, 116, 120, 116]⟩ .noFail).1.customers =
      [⟨[118, 101, 108, 105], [], []⟩] ∧
    (print_receipt ⟨[⟨[118, 101, 108, 105], [], []⟩], fun _ => none⟩ [98, 111, 98]
        [] [] 1 2 strPazarci ⟨[114], [46, 116, 120, 116]⟩ .noFail).1.fs
      CUSTOMER_FILE = none ∧
    (print_receipt ⟨[⟨[118, 101, 108, 105], [], []⟩], fun _ => none⟩ [98, 111, 98]
        [] [] 1 2 strPazarci ⟨[114], [46, 116, 120, 116]⟩ .noFail).1.fs
        ⟨[114], [46, 116, 120, 116]⟩ =
      some (.textFile (encodeReceipt (generate_receipt_data strPazarci
        ⟨format_for_display (pyStrip [98, 111, 98]), [], []⟩ [] [] 1 2
        (roleVat strPazarci)))) := by
  have h := C10_print_receipt_frame ⟨[⟨[118, 101, 108, 105], [], []⟩], fun _ => none⟩
    [98, 111, 98] [] [] 1 2 strPazarci ⟨[114], [46, 116, 120, 116]⟩ .noFail (by decide)
  exact ⟨h.1, h.2.1, h.2.2 (by decide) (by norm_num) (by norm_num) rfl (by decide)⟩

/-- C1 counterexample: the claim quantifies over every query string, but
`_find_customer_by_name` returns `None` outright for a falsy (empty) raw
query even when a customer's normalized name equals the normalized query:
with the single customer `" "` (one space, normalized key `""`) and the
query `""` (also normalized `""`), an exact normalized match exists, yet
the function returns `None`. -/
theorem C1_counterexample_empty_query :
    normalize_for_comparison ([32] : Str) = normalize_for_comparison ([] : Str) ∧
    find_customer_by_name [⟨[32], [], []⟩] [] = none := by
  exact ⟨by decide, rfl⟩

/-- C1 (amended): for every directory and every *nonempty* query string
(an empty query returns none immediately), `findByName` first normalizes
the query and returns the first customer in list order whose normalized
name equals the normalized query, so an identity-equal record always wins
over fuzzy similarity; only when no exact match exists does it compute
the closest key by the Ratcliff/Obershelp sequence-similarity ratio over
normalized names: any returned customer belongs to the directory, its
normalized name has similarity at least 0.7 to the normalized query, and
that similarity is maximal over the whole directory; when none is
returned, every customer's similarity is below 0.7. -/
theorem C1_find_by_name (customers : List Customer) (query : Str) (hq : query ≠ []) :
    (∀ c, customers.find? (fun c =>
        decide (normalize_for_comparison c.name = normalize_for_comparison query)) =
          some c →
      find_customer_by_name customers query = some c) ∧
    (customers.find? (fun c =>
        decide (normalize_for_comparison c.name = normalize_for_comparison query)) =
          none →
      (∀ c, find_customer_by_name customers query = some c →
        c ∈ customers ∧
          (7 : ℚ) / 10 ≤
            ratioQ (normalize_for_comparison c.name) (normalize_for_comparison query) ∧
          ∀ c' ∈ customers,
            ratioQ (normalize_for_comparison c'.name) (normalize_for_comparison query) ≤
              ratioQ (normalize_for_comparison c.name) (normalize_for_comparison query)) ∧
      (find_customer_by_name customers query = none →
        ∀ c' ∈ customers,
          ratioQ (normalize_for_comparison c'.name) (normalize_for_comparison query) <
            7 / 10)) := by
  constructor
  · intro c hc
    unfold find_customer_by_name
    rw [if_neg hq, hc]
  · intro hnone
    constructor
    · intro c hc
      unfold find_customer_by_name at hc
      rw [if_neg hq, hnone] at hc
      cases hgcm : get_close_match1 (normalize_for_comparison query)
          (firstDedup (customers.map fun c => normalize_for_comparison c.name)) with
      | none =>
        rw [hgcm] at hc
        exact absurd (show (none : Option Customer) = some c from hc) (by simp)
      | some w =>
        rw [hgcm] at hc
        have hc2 : lastWithKey customers w = some c := hc
        unfold get_close_match1 at hgcm
        have hwmem : w ∈ firstDedup
            (customers.map fun c => normalize_for_comparison c.name) := by
          rcases gcmFold_some_mem _ _ _ _ hgcm with hm | hm
          · exact hm
          · exact absurd hm (by simp)
        have helig := gcmFold_elig _ _ _ _ (fun b hb => by simp at hb) hgcm
        have hmax := (gcmFold_max _ _ _ _ hgcm).2
        obtain ⟨c0, hc0, hc0mem, hc0key⟩ := lastWithKey_of_mem (mem_firstDedup.mp hwmem)
        rw [hc0] at hc2
        have hcc : c0 = c := Option.some_injective _ hc2
        subst hcc
        rw [hc0key]
        refine ⟨hc0mem, helig, ?_⟩
        intro c' hc'
        have hkmem : normalize_for_comparison c'.name ∈ firstDedup
            (customers.map fun c => normalize_for_comparison c.name) :=
          mem_firstDedup.mpr (List.mem_map.mpr ⟨c', hc', rfl⟩)
        rcases hmax _ hkmem with hle | hne
        · exact hle
        · exact le_trans (le_of_lt (lt_of_not_le hne)) helig
    · intro hfnone c' hc'
      unfold find_customer_by_name at hfnone
      rw [if_neg hq, hnone] at hfnone
      cases hgcm : get_close_match1 (normalize_for_comparison query)
          (firstDedup (customers.map fun c => normalize_for_comparison c.name)) with
      | some w =>
        rw [hgcm] at hfnone
        have hf2 : lastWithKey customers w = none := hfnone
        unfold get_close_match1 at hgcm
        have hwmem : w ∈ firstDedup
            (customers.map fun c => normalize_for_comparison c.name) := by
          rcases gcmFold_some_mem _ _ _ _ hgcm with hm | hm
          · exact hm
          · exact absurd hm (by simp)
        obtain ⟨c0, hc0, -, -⟩ := lastWithKey_of_mem (mem_firstDedup.mp hwmem)
        rw [hc0] at hf2
        exact absurd hf2 (by simp)
      | none =>
        unfold get_close_match1 at hgcm
        have hall := (gcmFold_none _ _ _ hgcm).2
        have hkmem : normalize_for_comparison c'.name ∈ firstDedup
            (customers.map fun c => normalize_for_comparison c.name) :=
          mem_firstDedup.mpr (List.mem_map.mpr ⟨c', hc', rfl⟩)
        exact lt_of_not_le (hall _ hkmem)

/-- C1 witness: the theorem at the directory `["veli"]` and query
`"vali"`: no exact match, fuzzy similarity `0.75 ≥ 0.7`, the stored
customer is returned. -/
theorem C1_find_by_name_witness :
    (⟨[118, 101, 108, 105], [], []⟩ : Customer) ∈
      ([⟨[118, 101, 108, 105], [], []⟩] : List Customer) ∧
    (7 : ℚ) / 10 ≤ ratioQ (normalize_for_comparison [118, 101, 108, 105])
      (normalize_for_comparison [118, 97, 108, 105]) := by
  have h := ((C1_find_by_name [⟨[118, 101, 108, 105], [], []⟩] [118, 97, 108, 105]
      (by decide)).2 (by decide)).1 ⟨[118, 101, 108, 105], [], []⟩ (by decide)
  exact ⟨h.1, h.2.1⟩


end SebzeMeyve
